import Mathlib

/-!
Verification of the ezhdl hardware-simulation library against its
natural-language specification.

The development shallowly embeds the parts of the library that the claims
touch:

* `src/ezhdl/ez_types.py` — the fixed-width integer value family
  (`Integer`, `Wire`, `Unsigned`, `Signed`), bit slicing, `Array`
  structural compatibility and `HwType`/record assignment.
* `src/ezhdl/ez_signal.py` — `SignalContent` cells, the `nxt` setter, the
  two-phase `Signal.update` scheduler pass and the `driver` connection
  logic.
* `src/ezhdl/ez_simplesim.py` — `SimpleSim.schedule_event`.

Python's arbitrary-precision integers are embedded as `Int`.  Python's
`//` and `%` (floor division, remainder with the divisor's sign) agree
with Lean's `Int` `/` and `%` (Euclidean division) whenever the divisor
is positive, which is the case at every division site in the library
(the divisors are powers of two).  Bitwise operations on arbitrary
precision two's-complement integers are translated by their arithmetic
meaning, which coincides with Python's for all integers, positive and
negative:

* `x & ((1 << n) - 1)`  =  `x % 2^n`
* `(x & mask(hi, lo)) >> lo`  =  `(x / 2^lo) % 2^(hi-lo)`
* `x & ~mask(hi, lo)`  =  `x - ((x / 2^lo) % 2^(hi-lo)) * 2^lo`
* `(y << lo) & mask(hi, lo)`  =  `(y % 2^(hi-lo)) * 2^lo`

Fallible Python code (raising exceptions) is embedded with `Option` or
`Except`.
-/

namespace Ez

/-! ## Value system: the `Integer` family (`src/ezhdl/ez_types.py`) -/

/-- The four concrete classes of the `Integer` family.  `Wire`,
`Unsigned` and `Signed` are Python subclasses of `Integer`. -/
inductive IKind where
  | integer
  | wire
  | unsigned
  | signed
deriving DecidableEq, Repr

/-- Embeds `constrain` of each `Integer`-family class, as a function of the
class, the `nbits` attribute and the raw value.

* `Integer.constrain` returns `self` unchanged.
* `Wire.constrain` does `self._val &= 1`, i.e. `v % 2`.
* `Unsigned.constrain` does `self._val &= (1 << nbits) - 1`,
  i.e. `v % 2^nbits`.
* `Signed.constrain` masks the same way and then executes
  `if self._val >> (self.nbits - 1): self._val -= (1 << self.nbits)`.
  For `nbits = 0` the shift amount `self.nbits - 1` is `-1` and Python
  raises `ValueError: negative shift count`, so the result is `none`.
  For `nbits ≥ 1` the shifted value `u >> (nbits-1)` of the masked
  `u ∈ [0, 2^nbits)` is `u / 2^(nbits-1) ∈ {0, 1}`, and the branch is
  taken exactly when it is nonzero. -/
def constrainK : IKind → Nat → Int → Option Int
  | .integer, _, v => some v
  | .wire, _, v => some (v % 2)
  | .unsigned, n, v => some (v % 2 ^ n)
  | .signed, n, v =>
      if n = 0 then none
      else
        some (if (v % 2 ^ n) / 2 ^ (n - 1) ≠ 0 then v % 2 ^ n - 2 ^ n else v % 2 ^ n)

/-- Embeds `Integer.assign`: it sets `self.val = other` (unwrapping an `Integer`
source to its raw integer) and then calls `self.constrain()`. -/
def assignK (k : IKind) (nbits : Nat) (v : Int) : Option Int :=
  constrainK k nbits v

/-- Embeds `Unsigned(val, nbits)` — `__init__` stores `nbits` and the value and
constrains; the stored value. -/
def unsignedAssign (nbits : Nat) (v : Int) : Int :=
  v % 2 ^ nbits

/-- Embeds `Signed(val, nbits)` / `Signed.assign` — the stored value, `none` when
`constrain` raises (`nbits = 0`). -/
def signedAssign (nbits : Nat) (v : Int) : Option Int :=
  constrainK .signed nbits v

/-- Embeds `mask(hi, lo) = ((1 << (hi - lo)) - 1) << lo` from `ez_types.py`
(only ever called with `lo ≤ hi`). -/
def pymask (hi lo : Nat) : Int :=
  (2 ^ (hi - lo) - 1) * 2 ^ lo

/-- Embeds `Integer.__getitem__` with an explicit non-negative slice
`x[hi:lo]`:  raises (`none`) when `lo > hi`, otherwise computes
`val = (self._val & mask(hi, lo)) >> lo` — arithmetically
`(v / 2^lo) % 2^(hi-lo)` — and returns `type(self)(val, nbits=hi-lo)`,
i.e. the value re-constrained by the receiver's own class with width
`hi - lo`. -/
def getitemK (k : IKind) (hi lo : Nat) (v : Int) : Option Int :=
  if lo > hi then none
  else constrainK k (hi - lo) ((v / 2 ^ lo) % 2 ^ (hi - lo))

/-- Embeds `Integer.__setitem__` with an explicit non-negative slice
`x[hi:lo] = y` on a receiver of class `k` with width `w`: raises
(`none`) when `lo > hi`, otherwise executes

```
m = mask(hi, lo)
self._val &= ~m
self._val += (value << lo) & m
return self.constrain()
```

arithmetically: clear the bit field `[lo, hi)`, splice in
`(y % 2^(hi-lo)) * 2^lo`, then constrain with the receiver's class and
width. -/
def setitemK (k : IKind) (w hi lo : Nat) (v y : Int) : Option Int :=
  if lo > hi then none
  else constrainK k w (v - ((v / 2 ^ lo) % 2 ^ (hi - lo)) * 2 ^ lo + (y % 2 ^ (hi - lo)) * 2 ^ lo)

/-- Embeds `Integer.__setitem__` with a single (non-slice, non-negative) index
`x[key] = y`: the source sets `hi = key` and `lo = key` and falls through
to the same splice code. -/
def setitemIdx (k : IKind) (w key : Nat) (v y : Int) : Option Int :=
  setitemK k w key key v y

/-- Embeds `Integer.__getitem__` with a single (non-slice, non-negative) index
`x[key]`: the source sets `hi = key + 1` and `lo = key`. -/
def getitemIdx (k : IKind) (key : Nat) (v : Int) : Option Int :=
  getitemK k (key + 1) key v

/-- Bit `k` of an arbitrary-precision two's-complement integer:
`(z >> k) & 1`. -/
def bitAt (z : Int) (k : Nat) : Int :=
  (z / 2 ^ k) % 2

/-! ## Records: `HwType.assign` (`src/ezhdl/ez_types.py`)

A record (`HwType`/`Record` subclass instance) is embedded as a list of
named fields.  Attribute names are embedded as `Nat` identifiers.  A
field is either an `Integer`-family member (embedded here with
`Unsigned` semantics: `nbits` plus a value, whose `assign` masks to the
width), a nested record (itself an `HwType`), or a member of any
non-hardware type (opaque payload). -/

/-- One attribute value of a record. -/
inductive Fld where
  | num (nbits : Nat) (val : Int)
  | sub (fields : List (Nat × Fld))
  | other (x : Int)

/-- Embeds `vars(other)[attr_name]` — looking up the source attribute by name;
`none` models the `KeyError` when the source has no such attribute. -/
def lookupF (fs : List (Nat × Fld)) (n : Nat) : Option Fld :=
  (fs.find? (fun p => p.1 == n)).map (fun p => p.2)

/-- Embeds `HwType.assign(self, other)`: iterate over `vars(self)`; for an
attribute that is itself an `HwType` (here: `.num`, via
`Integer.assign`, and `.sub`, recursively), call its `assign` with the
like-named source attribute; otherwise the source executes

```
attr_value = deepcopy(vars(other)[attr_name])
```

which rebinds the **local variable** `attr_value` and never stores the
copy back into `self`, so a non-`HwType` attribute keeps its old value
(the lookup of the source attribute still happens, so a missing source
attribute still raises).  `fuel` bounds the recursion; any value at
least the number of nodes of the record tree is enough. -/
def hwAssign : Nat → List (Nat × Fld) → List (Nat × Fld) → Option (List (Nat × Fld))
  | 0, _, _ => none
  | _ + 1, [], _ => some []
  | fuel + 1, p :: rest, other =>
    match lookupF other p.1 with
    | none => none
    | some sv =>
      let f' : Option Fld :=
        match p.2, sv with
        | .num n _, .num _ v => some (.num n (v % 2 ^ n))
        | .sub fs, .sub gs => (hwAssign fuel fs gs).map Fld.sub
        | .other x, _ => some (.other x)
        | _, _ => none
      match f' with
      | none => none
      | some f => (hwAssign fuel rest other).map (fun r => (p.1, f) :: r)

/-! ## Structural values and type compatibility
(`Array.check_type` in `src/ezhdl/ez_types.py`, the `nxt` setter and
`Signal._check_type` in `src/ezhdl/ez_signal.py`)

For the type-compatibility claims, values are embedded with their Python
class structure: the `Integer` family plus `Array` (a `List` of values).
-/

/-- A hardware value, as relevant to the structural type checks. -/
inductive HVal where
  | integer (val : Int)
  | wire (val : Int)
  | unsigned (nbits : Nat) (val : Int)
  | signed (nbits : Nat) (val : Int)
  | array (elems : List HVal)

/-- The Python classes of the embedded values. -/
inductive PyClass where
  | integer
  | wire
  | unsigned
  | signed
  | array
deriving DecidableEq

/-- Computes `type(v)` for the embedded values. -/
def classOf : HVal → PyClass
  | .integer _ => .integer
  | .wire _ => .wire
  | .unsigned _ _ => .unsigned
  | .signed _ _ => .signed
  | .array _ => .array

/-- Embeds `isinstance(x, c)` for an `x` of class `classOf x`: `Wire`,
`Unsigned` and `Signed` are subclasses of `Integer`; `Array` is
unrelated to the integer classes. -/
def subclassB (c p : PyClass) : Bool :=
  c == p || (p == .integer && (c == .wire || c == .unsigned || c == .signed))

/-- Embeds `hasattr(v, "check_type")` — only `Array` defines a method of this
name among the hardware value classes. -/
def hasCheckTypeAttr : HVal → Bool
  | .array _ => true
  | _ => false

/-- Embeds `hasattr(v, "_check_type")` — the name with the leading underscore
that `Signal.nxt`'s setter and `Signal._check_type` look up.  **No**
hardware value class defines an attribute of this name (`Array` names
its method `check_type`, without the underscore), so this is `false` for
every value. -/
def hasUCheckType : HVal → Bool :=
  fun _ => false

mutual

/-- Embeds `Array.check_type(self, b)`: `False` unless the lengths agree,
`self` is an instance of `type(b)`, and, element by element, `self[i]`
is an instance of `type(b[i])` and — when `self[i]` has a `check_type`
method, i.e. is itself an `Array` — recursively compatible.  Called on a
non-`Array` argument the source returns `False` via the `isinstance`
check (or raises in `len(b)`); the embedding returns `false` there. -/
def checkTypeV : HVal → HVal → Bool
  | .array xs, .array ys => (xs.length == ys.length) && checkElems xs ys
  | _, _ => false

/-- The element loop of `Array.check_type` (lengths already equal). -/
def checkElems : List HVal → List HVal → Bool
  | [], _ => true
  | _ :: _, [] => true
  | x :: xs, y :: ys =>
      (subclassB (classOf x) (classOf y) &&
        (if hasCheckTypeAttr x then checkTypeV x y else true)) && checkElems xs ys

end

/-- The type check of the `Signal.nxt` setter for a plain value write
(`val` not a `Signal`): the write is accepted iff
`isinstance(self.content[0]._obj, type(next_val))` holds and, **if the
receiving object has a `_check_type` attribute**, that check passes.
Since no value class has `_check_type` (see `hasUCheckType`), the second
test never runs. -/
def nxtSetterAccepts (dest val : HVal) : Bool :=
  subclassB (classOf dest) (classOf val) &&
    (if hasUCheckType dest then checkTypeV dest val else true)

/-- Embeds `Signal._check_type(self, b)` with `b` a `Signal`, on the underlying
cell-0 objects: the same subclass test plus the same (never-found)
`_check_type` attribute lookup; this is the predicate used by
`Signal.driver` for connections. -/
def connectAccepts (destObj srcObj : HVal) : Bool :=
  subclassB (classOf destObj) (classOf srcObj) &&
    (if hasUCheckType destObj then checkTypeV destObj srcObj else true)

/-! ## Signal cells and the two-phase scheduler pass
(`SignalContent`, `Signal.nxt`, `Signal.update` in
`src/ezhdl/ez_signal.py`)

A `SignalContent` holds the committed object `_obj`, the pending object
`_next` and the per-cell flag `_pend`.  The claims about the scheduler
concern signals whose cells hold `Integer`-family objects, whose
equality (`__ne__`) and truthiness compare the stored integer, so cell
payloads are embedded as `Int`.  A signal's content is the list of its
cells (`Signal.content`, pipeline order: index 0 is the write end,
index -1 the read end). -/

/-- Embeds `SignalContent`: `_obj`, `_next`, `_pend`. -/
structure Cell where
  obj : Int
  next : Int
  pend : Bool
deriving DecidableEq, Repr

/-- The default cell (used only to totalize head/last lookups; all
theorems below deal with nonempty cell lists, as `Signal.__init__`
always creates at least one cell). -/
def dCell : Cell :=
  ⟨0, 0, false⟩

/-- Reads `self.content[0]._pend` — the flag the scheduler tests. -/
def headPend (c : List Cell) : Bool :=
  (c.headD dCell).pend

/-- Reads `self.content[-1]` — the cell the edge evaluators read. -/
def lastCell (c : List Cell) : Cell :=
  c.getLastD dCell

/-- Embeds `Signal.changed_eval`: `content[-1]._next != content[-1]._obj`. -/
def changedEvalC (c : List Cell) : Bool :=
  (lastCell c).next != (lastCell c).obj

/-- Embeds `Signal.posedge_eval`:
`(content[-1]._next != 0) and (content[-1]._obj == 0)`. -/
def posedgeEvalC (c : List Cell) : Bool :=
  ((lastCell c).next != 0) && ((lastCell c).obj == 0)

/-- Embeds `Signal.negedge_eval`:
`(content[-1]._next == 0) and (content[-1]._obj != 0)`. -/
def negedgeEvalC (c : List Cell) : Bool :=
  ((lastCell c).next == 0) && ((lastCell c).obj != 0)

/-- The per-signal state the evaluate phase manipulates: the cells plus
the signal's edge flags (`_changed`, `_posedge`, `_negedge`,
`_transition`). -/
structure SigView where
  cells : List Cell
  changed : Bool := false
  posedge : Bool := false
  negedge : Bool := false
  transition : Bool := false
deriving DecidableEq, Repr

/-- Phase 1 of `Signal.update` for one signal: if `content[0]._pend`,
compute the three edge flags with the `*_eval` methods and copy
`_changed` into the sticky `_transition`; otherwise clear the three edge
flags (`_transition` is left alone). -/
def evalPhaseSig (s : SigView) : SigView :=
  if headPend s.cells then
    { s with
      changed := changedEvalC s.cells
      posedge := posedgeEvalC s.cells
      negedge := negedgeEvalC s.cells
      transition := changedEvalC s.cells }
  else
    { s with changed := false, posedge := false, negedge := false }

/-- Phase 2 of `Signal.update` for one signal with a pending cell 0:
`content[0]._pend = False`, then for each cell in order, count it when
`c._obj != c._next` and copy `_next` into `_obj` (the count and the copy
are interleaved per cell in the source; each cell's comparison only
involves that cell, so counting all and copying all is the same). -/
def commitCells (c : List Cell) : List Cell × Nat :=
  let cleared : List Cell :=
    match c with
    | [] => []
    | c0 :: rest => { c0 with pend := false } :: rest
  (cleared.map (fun cl => { cl with obj := cl.next }),
   (cleared.filter (fun cl => cl.obj != cl.next)).length)

/-- Phase 2 of `Signal.update` for one signal: only signals with
`content[0]._pend` are committed; the second component is the signal's
contribution to the global `updated` counter. -/
def commitSig (c : List Cell) : List Cell × Nat :=
  if headPend c then commitCells c else (c, 0)

/-- The pipeline-shift loop of the `Signal.nxt` **setter**:
`content[0]._next` receives the written value and, for `i ≥ 1`,
`content[i]._next` receives `content[i-1]._obj`. -/
def writeNexts : Int → List Cell → List Cell
  | _, [] => []
  | v, c :: rest => { c with next := v } :: writeNexts c.obj rest

/-- The `Signal.nxt` setter on content holding `Integer`-family objects
(after its type checks, which always pass for a same-class write):
`content[0]._pend = True`, then the pipeline-shift loop. -/
def writeCellsSetter (v : Int) : List Cell → List Cell
  | [] => []
  | c :: rest => writeNexts v ({ c with pend := true } :: rest)

/-! ## The signal network: connections and the global scheduler pass
(`Signal.driver`, `Signal.update` in `src/ezhdl/ez_signal.py`)

Following the spec's own design note ("model shared mutable storage as
an indirection layer — signals hold an index/handle into a shared
cell-storage arena"), signal content lists live in a heap (`Net.heap`)
and each signal holds the index of its content (`cid`).  Python's
`self.content = b.content` — making the two `content` attributes the
same list object — becomes copying the driver's heap index into the
follower.  Signals are numbered; `_driver` holds a signal number,
`_drives` a list of signal numbers (Python's `is`-identity tests on
signals become number equality). -/

/-- The per-signal bookkeeping of a `Signal`: the content handle and the
`_driver` / `_drives` / edge-flag attributes. -/
structure SigMeta where
  cid : Nat
  driver : Option Nat := none
  drives : List Nat := []
  changed : Bool := false
  posedge : Bool := false
  negedge : Bool := false
  transition : Bool := false
deriving DecidableEq, Repr

/-- Default meta, used only to totalize out-of-range lookups. -/
def dMeta : SigMeta :=
  { cid := 0 }

/-- The state of a signal network: the content arena and the signal
registry (`Signal.instances`). -/
structure Net where
  heap : List (List Cell)
  sigs : List SigMeta
deriving DecidableEq, Repr

def metaOf (s : Net) (i : Nat) : SigMeta :=
  s.sigs.getD i dMeta

def cidOf (s : Net) (i : Nat) : Nat :=
  (metaOf s i).cid

def driverOf (s : Net) (i : Nat) : Option Nat :=
  (metaOf s i).driver

def drivesOf (s : Net) (i : Nat) : List Nat :=
  (metaOf s i).drives

def setSig (s : Net) (i : Nat) (m : SigMeta) : Net :=
  { s with sigs := s.sigs.set i m }

/-- The exceptions `Signal.driver` can raise, plus fuel exhaustion of the
embedding (standing for non-termination of the Python recursion, which
cannot happen in the acyclic connection graphs reachable through the
API). -/
inductive ConnErr where
  | multipleDriver
  | typeIncompat
  | outOfFuel
deriving DecidableEq, Repr

/-- Embeds `Signal._check_type` for this network model: both sides are
`Signal`s holding same-class `Integer`-family objects, so the
`isinstance` test passes and — as no value class defines `_check_type`
(see `hasUCheckType`) — no further check runs: the predicate is `true`. -/
def netCheckType (_s : Net) (_f _d : Nat) : Bool :=
  true

/-- The pointing part of `Signal.driver`:
`self.content = b.content; self._driver = b`. -/
def connectPoint (s : Net) (f d : Nat) : Net :=
  setSig s f { metaOf s f with cid := cidOf s d, driver := some d }

/-- The recording part of `Signal.driver`: scan `b._drives` for `self`
(`is`-identity) and append `self` when absent. -/
def connectRecord (st : Net) (f d : Nat) : Net :=
  if f ∈ drivesOf st d then st
  else setSig st d { metaOf st d with drives := drivesOf st d ++ [f] }

/-- The non-recursive part of a `Signal.driver` call body. -/
def connectStep (s : Net) (f d : Nat) : Net :=
  connectRecord (connectPoint s f d) f d

/-- Embeds `Signal.driver(self = f, b = d)`:

```
if (not (self._driver is None)) and (not (self._driver is b)): raise
if self._check_type(b):
    self.content = b.content
    self._driver = b
    ... append to b._drives if absent ...
    for i in self._drives: i.driver(self)
else: raise
```

`fuel` bounds the recursion depth. -/
def connect : Nat → Nat → Nat → Net → Except ConnErr Net
  | 0, _, _, _ => .error .outOfFuel
  | fuel + 1, f, d, s =>
    if driverOf s f ≠ none ∧ driverOf s f ≠ some d then .error .multipleDriver
    else if netCheckType s f d then
      (drivesOf (connectStep s f d) f).foldlM (fun st g => connect fuel g f st) (connectStep s f d)
    else .error .typeIncompat

/-- The state `f` is left in by a completed `connect f d`: driver
recorded, content aliased, membership in the driver's `_drives`, and
recursively for every follower of `f`. -/
def settled : Nat → Net → Nat → Nat → Bool
  | 0, _, _, _ => false
  | fuel + 1, s, f, d =>
    (driverOf s f == some d) && (cidOf s f == cidOf s d) && (decide (f ∈ drivesOf s d)) &&
      (drivesOf s f).all (fun g => settled fuel s g f)

/-- Every recorded follower is a valid signal number. -/
def closedB (s : Net) : Bool :=
  s.sigs.all (fun m => m.drives.all (fun g => g < s.sigs.length))

/-- The content a signal reads and writes: `self.content`, through the
arena. -/
def contentOf (s : Net) (i : Nat) : List Cell :=
  s.heap.getD (cidOf s i) []

/-- Embeds `Signal.now` (the committed value of the last cell) for the `Int`
payloads of this model: `self.content[-1]._obj`. -/
def nowOf (s : Net) (i : Nat) : Int :=
  (lastCell (contentOf s i)).obj

/-- Embeds `d.nxt = v`: run the setter on `d`'s content, in place in the
arena. -/
def writeNet (d : Nat) (v : Int) (s : Net) : Net :=
  { s with heap := s.heap.set (cidOf s d) (writeCellsSetter v (contentOf s d)) }

/-- Phase 1 of `Signal.update` for one signal of the network (same logic
as `evalPhaseSig`, acting on the signal's meta). -/
def evalFlagsMeta (m : SigMeta) (c : List Cell) : SigMeta :=
  if headPend c then
    { m with
      changed := changedEvalC c
      posedge := posedgeEvalC c
      negedge := negedgeEvalC c
      transition := changedEvalC c }
  else { m with changed := false, posedge := false, negedge := false }

/-- Phase 2 of `Signal.update`: iterate over the registry in order; for
each signal whose content has a pending first cell, clear the flag,
count and commit that content (signals aliased to an already-committed
content find its pend flag cleared and skip it, exactly as in the
source). -/
def commitNet : List SigMeta → List (List Cell) → Nat → List (List Cell) × Nat
  | [], heap, n => (heap, n)
  | m :: rest, heap, n =>
    if headPend (heap.getD m.cid []) then
      commitNet rest (heap.set m.cid (commitCells (heap.getD m.cid [])).1)
        (n + (commitCells (heap.getD m.cid [])).2)
    else commitNet rest heap n

/-- Embeds `Signal.update()`: the evaluate phase over every registered signal
(read-only on the heap), then the commit phase; returns the new network
and the global `updated` count. -/
def updateNet (s : Net) : Net × Nat :=
  ({ heap := (commitNet (s.sigs.map (fun m => evalFlagsMeta m (s.heap.getD m.cid []))) s.heap 0).1,
     sigs := s.sigs.map (fun m => evalFlagsMeta m (s.heap.getD m.cid [])) },
   (commitNet (s.sigs.map (fun m => evalFlagsMeta m (s.heap.getD m.cid []))) s.heap 0).2)

/-- The transitive follower relation generated by the `_drives` lists
("signal `g` is in the follower chain of `f`"). -/
inductive Follows (s : Net) : Nat → Nat → Prop
  | head {f g : Nat} : g ∈ drivesOf s f → Follows s f g
  | tail {f g h : Nat} : g ∈ drivesOf s f → Follows s g h → Follows s f h

deriving instance DecidableEq for Except

/-! ## The simulation clock: `SimpleSim.schedule_event`
(`src/ezhdl/ez_simplesim.py`) -/

/-- Python `list.insert(index, object)`: a negative index counts from
the end (clamped to 0), an index past the end appends. -/
def pyInsert (l : List Int) (idx : Int) (x : Int) : List Int :=
  l.take (if idx < 0 then ((l.length : Int) + idx).toNat else min idx.toNat l.length) ++
    x :: l.drop (if idx < 0 then ((l.length : Int) + idx).toNat else min idx.toNat l.length)

/-- The scan loop of `SimpleSim.schedule_event`, over the remaining list
with the running index `i`:

```
for i in range(len(cls.event_times)):
    if time_ps == cls.event_times[i]:
        return
    elif time_ps < cls.event_times[i]:
        cls.event_times.insert(time_ps, i)
        break
else:
    cls.event_times.append(time_ps)
```

Note the arguments of `insert`: the source passes `time_ps` as the
**position** and the loop index `i` as the **inserted value**. -/
def schedGo (t : Int) (full : List Int) : List Int → Nat → List Int
  | [], _ => full ++ [t]
  | e :: rest, i =>
    if t = e then full
    else if t < e then pyInsert full t (Int.ofNat i)
    else schedGo t full rest (i + 1)

/-- Embeds `SimpleSim.schedule_event(time_ps)` acting on `event_times`. -/
def scheduleEvent (times : List Int) (t : Int) : List Int :=
  schedGo t times times 0

/-! ### Arithmetic facts about Euclidean division by powers of two -/

theorem ediv2_ediv2 (a : Int) (m n : Nat) : a / 2 ^ m / 2 ^ n = a / 2 ^ (m + n) := by
  have hm : (0:Int) < 2 ^ m := by positivity
  have hn : (0:Int) < 2 ^ n := by positivity
  have hmn : (0:Int) < 2 ^ (m + n) := by positivity
  have key : a / 2 ^ (m + n) = a / 2 ^ m / 2 ^ n ∧
      a % 2 ^ (m + n) = 2 ^ m * ((a / 2 ^ m) % 2 ^ n) + a % 2 ^ m := by
    rw [Int.ediv_emod_unique hmn]
    have h1 : 2 ^ m * (a / 2 ^ m) + a % 2 ^ m = a := Int.ediv_add_emod a (2 ^ m)
    have h2 : 2 ^ n * (a / 2 ^ m / 2 ^ n) + (a / 2 ^ m) % 2 ^ n = a / 2 ^ m :=
      Int.ediv_add_emod (a / 2 ^ m) (2 ^ n)
    have h3 : 0 ≤ (a / 2 ^ m) % 2 ^ n := Int.emod_nonneg _ (by positivity)
    have h4 : 0 ≤ a % 2 ^ m := Int.emod_nonneg _ (by positivity)
    have h5 : (a / 2 ^ m) % 2 ^ n < 2 ^ n := Int.emod_lt_of_pos _ hn
    have h6 : a % 2 ^ m < 2 ^ m := Int.emod_lt_of_pos _ hm
    refine ⟨?_, ?_, ?_⟩
    · rw [pow_add]
      linear_combination (2:Int) ^ m * h2 + h1
    · exact add_nonneg (mul_nonneg (le_of_lt hm) h3) h4
    · have h7 : 2 ^ m * ((a / 2 ^ m) % 2 ^ n) ≤ 2 ^ m * (2 ^ n - 1) :=
        mul_le_mul_of_nonneg_left (by omega) (le_of_lt hm)
      have hp : (2:Int) ^ (m + n) = 2 ^ m * 2 ^ n := pow_add 2 m n
      nlinarith
  exact key.1.symm

theorem emod2_of_ediv2 (a : Int) (m n : Nat) :
    (a / 2 ^ m) % 2 ^ n = (a % 2 ^ (m + n)) / 2 ^ m := by
  have hm : (0:Int) < 2 ^ m := by positivity
  have hn : (0:Int) < 2 ^ n := by positivity
  have hmn : (0:Int) < 2 ^ (m + n) := by positivity
  have h1 : 2 ^ (m+n) * (a / 2 ^ (m+n)) + a % 2 ^ (m+n) = a := Int.ediv_add_emod a _
  set r := a % 2 ^ (m+n) with hrdef
  set q := a / 2 ^ (m+n) with hqdef
  have e2 : a = r + (2 ^ n * q) * 2 ^ m := by rw [← h1, pow_add]; ring
  have e1 : (r + (2 ^ n * q) * 2 ^ m) / 2 ^ m = r / 2 ^ m + 2 ^ n * q :=
    Int.add_mul_ediv_right _ _ (ne_of_gt hm)
  have hq : a / 2 ^ m = r / 2 ^ m + 2 ^ n * q := by rw [e2, e1]
  rw [hq, Int.add_mul_emod_self_left]
  have hr0 : 0 ≤ r := Int.emod_nonneg _ (by positivity)
  have hrlt : r < 2 ^ (m+n) := Int.emod_lt_of_pos _ hmn
  have hd0 : 0 ≤ r / 2 ^ m := Int.ediv_nonneg hr0 (le_of_lt hm)
  have hdlt : r / 2 ^ m < 2 ^ n := by
    rw [Int.ediv_lt_iff_lt_mul hm]
    calc r < 2 ^ (m+n) := hrlt
    _ = 2 ^ n * 2 ^ m := by rw [pow_add]; ring
  exact Int.emod_eq_of_lt hd0 hdlt

/-- Bits below position `w` only depend on the value modulo `2^w`. -/
theorem bitAt_congr (w : Nat) {z₁ z₂ : Int} (h : (2 ^ w : Int) ∣ z₁ - z₂)
    {k : Nat} (hk : k < w) : bitAt z₁ k = bitAt z₂ k := by
  have hdvd : ((2:Int) ^ (k + 1)) ∣ (2 ^ w : Int) :=
    pow_dvd_pow 2 (by omega)
  have hmod : z₁ % 2 ^ (k + 1) = z₂ % 2 ^ (k + 1) :=
    Int.emod_eq_emod_iff_emod_sub_eq_zero.mpr
      (Int.emod_eq_zero_of_dvd (dvd_trans hdvd h))
  have b₁ := emod2_of_ediv2 z₁ k 1
  have b₂ := emod2_of_ediv2 z₂ k 1
  simp only [pow_one] at b₁ b₂
  unfold bitAt
  rw [b₁, b₂, hmod]

/-- Any integer decomposes into the bit field below `lo`, the field
`[lo, hi)` and the field at `hi` and above. -/
theorem field_decomp (lo hi : Nat) (hl : lo ≤ hi) (v : Int) :
    v = v % 2 ^ lo + ((v / 2 ^ lo) % 2 ^ (hi - lo)) * 2 ^ lo + (v / 2 ^ hi) * 2 ^ hi := by
  have h1 : 2 ^ lo * (v / 2 ^ lo) + v % 2 ^ lo = v := Int.ediv_add_emod v (2 ^ lo)
  have h2 : 2 ^ (hi - lo) * (v / 2 ^ lo / 2 ^ (hi - lo)) + (v / 2 ^ lo) % 2 ^ (hi - lo)
      = v / 2 ^ lo := Int.ediv_add_emod (v / 2 ^ lo) (2 ^ (hi - lo))
  have h3 : v / 2 ^ lo / 2 ^ (hi - lo) = v / 2 ^ hi := by
    rw [ediv2_ediv2]
    congr 1
    congr 1
    omega
  have hpow : (2:Int) ^ hi = 2 ^ lo * 2 ^ (hi - lo) := by
    rw [← pow_add]
    congr 1
    omega
  rw [h3] at h2
  calc v = 2 ^ lo * (v / 2 ^ lo) + v % 2 ^ lo := h1.symm
  _ = 2 ^ lo * (2 ^ (hi - lo) * (v / 2 ^ hi) + (v / 2 ^ lo) % 2 ^ (hi - lo)) + v % 2 ^ lo := by
      rw [h2]
  _ = v % 2 ^ lo + ((v / 2 ^ lo) % 2 ^ (hi - lo)) * 2 ^ lo + (v / 2 ^ hi) * 2 ^ hi := by
      rw [hpow]; ring

/-- Reading the field `[lo, hi)` back out of a spliced value recovers the
written value modulo the field width. -/
theorem splice_read (lo hi : Nat) (hl : lo ≤ hi) (v y : Int) :
    ((v - ((v / 2 ^ lo) % 2 ^ (hi - lo)) * 2 ^ lo + (y % 2 ^ (hi - lo)) * 2 ^ lo) / 2 ^ lo)
        % 2 ^ (hi - lo) = y % 2 ^ (hi - lo) := by
  have hL : (0:Int) < 2 ^ lo := by positivity
  have hM : (0:Int) < 2 ^ (hi - lo) := by positivity
  have hd := field_decomp lo hi hl v
  have hpow : (2:Int) ^ hi = 2 ^ lo * 2 ^ (hi - lo) := by
    rw [← pow_add]; congr 1; omega
  have hS : v - ((v / 2 ^ lo) % 2 ^ (hi - lo)) * 2 ^ lo + (y % 2 ^ (hi - lo)) * 2 ^ lo
      = v % 2 ^ lo + (y % 2 ^ (hi - lo) + 2 ^ (hi - lo) * (v / 2 ^ hi)) * 2 ^ lo := by
    linear_combination hd + (v / 2 ^ hi) * hpow
  rw [hS, Int.add_mul_ediv_right _ _ (ne_of_gt hL),
    Int.ediv_eq_zero_of_lt (Int.emod_nonneg _ (ne_of_gt hL)) (Int.emod_lt_of_pos _ hL),
    Int.zero_add, Int.add_mul_emod_self_left, Int.emod_emod_of_dvd]
  exact dvd_refl _

/-- Splicing into `[lo, hi)` does not touch the bits below `lo`. -/
theorem splice_low (lo hi : Nat) (v y : Int) {k : Nat} (hk : k < lo) :
    bitAt (v - ((v / 2 ^ lo) % 2 ^ (hi - lo)) * 2 ^ lo + (y % 2 ^ (hi - lo)) * 2 ^ lo) k
      = bitAt v k := by
  apply bitAt_congr lo _ hk
  exact ⟨y % 2 ^ (hi - lo) - (v / 2 ^ lo) % 2 ^ (hi - lo), by ring⟩

/-- Splicing into `[lo, hi)` does not change the quotient by `2^hi`. -/
theorem splice_ediv_hi (lo hi : Nat) (hl : lo ≤ hi) (v y : Int) :
    (v - ((v / 2 ^ lo) % 2 ^ (hi - lo)) * 2 ^ lo + (y % 2 ^ (hi - lo)) * 2 ^ lo) / 2 ^ hi
      = v / 2 ^ hi := by
  have hL : (0:Int) < 2 ^ lo := by positivity
  have hM : (0:Int) < 2 ^ (hi - lo) := by positivity
  have hH : (0:Int) < 2 ^ hi := by positivity
  have hd := field_decomp lo hi hl v
  have hpow : (2:Int) ^ hi = 2 ^ lo * 2 ^ (hi - lo) := by
    rw [← pow_add]; congr 1; omega
  have hS : v - ((v / 2 ^ lo) % 2 ^ (hi - lo)) * 2 ^ lo + (y % 2 ^ (hi - lo)) * 2 ^ lo
      = (v % 2 ^ lo + (y % 2 ^ (hi - lo)) * 2 ^ lo) + (v / 2 ^ hi) * 2 ^ hi := by
    linear_combination hd
  rw [hS, Int.add_mul_ediv_right _ _ (ne_of_gt hH)]
  have ha0 : 0 ≤ v % 2 ^ lo := Int.emod_nonneg _ (ne_of_gt hL)
  have halt : v % 2 ^ lo < 2 ^ lo := Int.emod_lt_of_pos _ hL
  have hy0 : 0 ≤ y % 2 ^ (hi - lo) := Int.emod_nonneg _ (ne_of_gt hM)
  have hylt : y % 2 ^ (hi - lo) < 2 ^ (hi - lo) := Int.emod_lt_of_pos _ hM
  have hyle : y % 2 ^ (hi - lo) ≤ 2 ^ (hi - lo) - 1 := by omega
  have hmul : (y % 2 ^ (hi - lo)) * 2 ^ lo ≤ (2 ^ (hi - lo) - 1) * 2 ^ lo :=
    mul_le_mul_of_nonneg_right hyle (le_of_lt hL)
  have hin : v % 2 ^ lo + (y % 2 ^ (hi - lo)) * 2 ^ lo < 2 ^ hi := by
    have : ((2:Int) ^ (hi - lo) - 1) * 2 ^ lo = 2 ^ hi - 2 ^ lo := by
      rw [hpow]; ring
    omega
  have hin0 : 0 ≤ v % 2 ^ lo + (y % 2 ^ (hi - lo)) * 2 ^ lo :=
    add_nonneg ha0 (mul_nonneg hy0 (le_of_lt hL))
  rw [Int.ediv_eq_zero_of_lt hin0 hin, Int.zero_add]

/-- Splicing into `[lo, hi)` does not touch the bits at `hi` and above. -/
theorem splice_high (lo hi : Nat) (hl : lo ≤ hi) (v y : Int) {k : Nat} (hk : hi ≤ k) :
    bitAt (v - ((v / 2 ^ lo) % 2 ^ (hi - lo)) * 2 ^ lo + (y % 2 ^ (hi - lo)) * 2 ^ lo) k
      = bitAt v k := by
  have e1 : hi + (k - hi) = k := by omega
  unfold bitAt
  rw [← e1, ← ediv2_ediv2, ← ediv2_ediv2, splice_ediv_hi lo hi hl v y]

/-- If the receiver is an in-range unsigned value of width `w` and
`hi ≤ w`, the spliced value is again in range. -/
theorem splice_bound (w lo hi : Nat) (hl : lo ≤ hi) (hw : hi ≤ w) (v y : Int)
    (hv0 : 0 ≤ v) (hvlt : v < 2 ^ w) :
    0 ≤ v - ((v / 2 ^ lo) % 2 ^ (hi - lo)) * 2 ^ lo + (y % 2 ^ (hi - lo)) * 2 ^ lo ∧
    v - ((v / 2 ^ lo) % 2 ^ (hi - lo)) * 2 ^ lo + (y % 2 ^ (hi - lo)) * 2 ^ lo < 2 ^ w := by
  have hL : (0:Int) < 2 ^ lo := by positivity
  have hM : (0:Int) < 2 ^ (hi - lo) := by positivity
  have hH : (0:Int) < 2 ^ hi := by positivity
  have hQ : (0:Int) < 2 ^ (w - hi) := by positivity
  have hd := field_decomp lo hi hl v
  have hpow : (2:Int) ^ hi = 2 ^ lo * 2 ^ (hi - lo) := by
    rw [← pow_add]; congr 1; omega
  have hpw : (2:Int) ^ w = 2 ^ (w - hi) * 2 ^ hi := by
    rw [← pow_add]; congr 1; omega
  have ha0 : 0 ≤ v % 2 ^ lo := Int.emod_nonneg _ (ne_of_gt hL)
  have halt : v % 2 ^ lo < 2 ^ lo := Int.emod_lt_of_pos _ hL
  have hy0 : 0 ≤ y % 2 ^ (hi - lo) := Int.emod_nonneg _ (ne_of_gt hM)
  have hylt : y % 2 ^ (hi - lo) < 2 ^ (hi - lo) := Int.emod_lt_of_pos _ hM
  have hH0 : 0 ≤ v / 2 ^ hi := Int.ediv_nonneg hv0 (le_of_lt hH)
  have hHlt : v / 2 ^ hi < 2 ^ (w - hi) := by
    rw [Int.ediv_lt_iff_lt_mul hH]
    rw [hpw] at hvlt
    linarith
  have hmul1 : (y % 2 ^ (hi - lo)) * 2 ^ lo ≤ (2 ^ (hi - lo) - 1) * 2 ^ lo :=
    mul_le_mul_of_nonneg_right (by omega) (le_of_lt hL)
  have hmul1' : ((2:Int) ^ (hi - lo) - 1) * 2 ^ lo = 2 ^ hi - 2 ^ lo := by
    rw [hpow]; ring
  have hmul2 : (v / 2 ^ hi) * 2 ^ hi ≤ (2 ^ (w - hi) - 1) * 2 ^ hi :=
    mul_le_mul_of_nonneg_right (by omega) (le_of_lt hH)
  have hmul2' : ((2:Int) ^ (w - hi) - 1) * 2 ^ hi = 2 ^ w - 2 ^ hi := by
    rw [hpw]; ring
  have hmul3 : 0 ≤ (y % 2 ^ (hi - lo)) * 2 ^ lo := mul_nonneg hy0 (le_of_lt hL)
  have hmul4 : 0 ≤ (v / 2 ^ hi) * 2 ^ hi := mul_nonneg hH0 (le_of_lt hH)
  constructor
  · omega
  · omega

/-- Shows `Signed.constrain` with `nbits = n ≥ 1` succeeds and produces the
representative of the value modulo `2^n` lying in `[-2^(n-1), 2^(n-1)-1]`. -/
theorem signedConstrain_spec (n : Nat) (hn : 1 ≤ n) (v : Int) :
    ∃ r, constrainK .signed n v = some r ∧ -(2 ^ (n - 1) : Int) ≤ r ∧
      r ≤ 2 ^ (n - 1) - 1 ∧ ((2 ^ n : Int) ∣ (v - r)) := by
  have hn0 : n ≠ 0 := by omega
  have hpow : (2:Int) ^ n = 2 ^ (n - 1) * 2 := by
    rw [← pow_succ]
    congr 1
    omega
  have hh : (0:Int) < 2 ^ (n - 1) := by positivity
  have hN : (0:Int) < 2 ^ n := by positivity
  set u := v % 2 ^ n with hu
  have hu0 : 0 ≤ u := Int.emod_nonneg _ (by positivity)
  have hult : u < 2 ^ n := Int.emod_lt_of_pos _ hN
  have hdvd : (2 ^ n : Int) ∣ (v - u) := by
    rw [hu, Int.emod_def]
    exact ⟨v / 2 ^ n, by ring⟩
  simp only [constrainK, hn0, if_false]
  by_cases hcase : u < 2 ^ (n - 1)
  · have hz : u / 2 ^ (n - 1) = 0 := Int.ediv_eq_zero_of_lt hu0 hcase
    refine ⟨u, ?_, by omega, by omega, hdvd⟩
    simp [← hu, hz]
  · have h1 : 1 ≤ u / 2 ^ (n - 1) := by
      rw [Int.le_ediv_iff_mul_le hh]
      omega
    have hdvd2 : (2 ^ n : Int) ∣ (v - (u - 2 ^ n)) := by
      have heq : v - (u - 2 ^ n) = (v - u) + 2 ^ n := by ring
      rw [heq]
      exact dvd_add hdvd dvd_rfl
    refine ⟨u - 2 ^ n, ?_, by omega, by omega, hdvd2⟩
    simp only [← hu]
    rw [if_pos (by omega)]

/-- The signed representative of a residue class is unique. -/
theorem signed_rep_unique (n : Nat) (v r r' : Int)
    (h1 : -(2 ^ (n - 1) : Int) ≤ r) (h2 : r ≤ 2 ^ (n - 1) - 1)
    (h3 : (2 ^ n : Int) ∣ (v - r)) (hn : 1 ≤ n)
    (h4 : -(2 ^ (n - 1) : Int) ≤ r') (h5 : r' ≤ 2 ^ (n - 1) - 1)
    (h6 : (2 ^ n : Int) ∣ (v - r')) : r' = r := by
  have hpow : (2:Int) ^ n = 2 ^ (n - 1) * 2 := by
    rw [← pow_succ]
    congr 1
    omega
  have hN : (0:Int) < 2 ^ n := by positivity
  obtain ⟨k, hk⟩ : (2 ^ n : Int) ∣ (r - r') := by
    have heq : r - r' = (v - r') - (v - r) := by ring
    rw [heq]
    exact dvd_sub h6 h3
  have he1 : (2:Int) ^ n * k ≤ 2 ^ (n - 1) * 2 - 1 := by omega
  have he2 : -((2:Int) ^ (n - 1) * 2 - 1) ≤ 2 ^ n * k := by omega
  have hklt : k < 1 := by
    have h8 : (2:Int) ^ n * k < 2 ^ n * 1 := by
      rw [mul_one]
      linarith [hpow]
    exact lt_of_mul_lt_mul_left h8 (le_of_lt hN)
  have hkgt : -1 < k := by
    have h8 : (2:Int) ^ n * (-1) < 2 ^ n * k := by
      rw [mul_neg_one]
      linarith [hpow]
    exact lt_of_mul_lt_mul_left h8 (le_of_lt hN)
  have hk0 : k = 0 := by omega
  rw [hk0, mul_zero] at hk
  omega

/-! ## Claim C6 — masking semantics of `Unsigned.constrain` / `Signed.constrain` -/

/-- Claim C6, counterexample for "for all nbits": at `nbits = 0`,
`Signed.constrain` executes `self._val >> (self.nbits - 1)` with a shift
count of `-1` and Python raises `ValueError`, so assigning to a
`Signed(nbits=0)` yields no stored value at all. -/
theorem c6_signed_zero_counterexample :
    signedAssign 0 3 = none ∧ ¬ ∃ r : Int, signedAssign 0 3 = some r := by
  refine ⟨rfl, ?_⟩
  rintro ⟨r, h⟩
  exact Option.noConfusion h

/-- Claim C6 (amended): for all `nbits`, assigning any integer `v` to an
`Unsigned(nbits)` stores exactly `v mod 2^nbits`; for all `nbits ≥ 1`,
assigning `v` to a `Signed(nbits)` stores the unique representative of
`v` modulo `2^nbits` lying in `[-2^(nbits-1), 2^(nbits-1)-1]`.  (At
`nbits = 0` the `Signed` constrain raises, see the counterexample.) -/
theorem c6_integer_masking :
    (∀ (n : Nat) (v : Int),
      unsignedAssign n v = v % 2 ^ n ∧ 0 ≤ unsignedAssign n v ∧
        unsignedAssign n v < 2 ^ n ∧ (2 ^ n : Int) ∣ (v - unsignedAssign n v)) ∧
    (∀ (n : Nat) (v : Int), 1 ≤ n →
      ∃ r, signedAssign n v = some r ∧ -(2 ^ (n - 1) : Int) ≤ r ∧ r ≤ 2 ^ (n - 1) - 1 ∧
        ((2 ^ n : Int) ∣ (v - r)) ∧
        ∀ r' : Int, -(2 ^ (n - 1) : Int) ≤ r' → r' ≤ 2 ^ (n - 1) - 1 →
          ((2 ^ n : Int) ∣ (v - r')) → r' = r) := by
  constructor
  · intro n v
    have hN : (0:Int) < 2 ^ n := by positivity
    refine ⟨rfl, Int.emod_nonneg _ (by positivity), Int.emod_lt_of_pos _ hN, ?_⟩
    rw [unsignedAssign, Int.emod_def]
    exact ⟨v / 2 ^ n, by ring⟩
  · intro n v hn
    obtain ⟨r, hr, hb1, hb2, hdvd⟩ := signedConstrain_spec n hn v
    exact ⟨r, hr, hb1, hb2, hdvd, fun r' h4 h5 h6 =>
      signed_rep_unique n v r r' hb1 hb2 hdvd hn h4 h5 h6⟩

/-- Claim C6, witness: concrete instances of both halves
(`Unsigned(3)` given `-5` stores `3`; `Signed(2)` given `7` stores the
representative of `7 mod 4` in `[-2, 1]`). -/
theorem c6_integer_masking_witness :
    (unsignedAssign 3 (-5) = (-5 : Int) % 2 ^ 3 ∧ 0 ≤ unsignedAssign 3 (-5) ∧
      unsignedAssign 3 (-5) < 2 ^ 3 ∧ (2 ^ 3 : Int) ∣ ((-5) - unsignedAssign 3 (-5))) ∧
    (∃ r, signedAssign 2 7 = some r ∧ -(2 ^ (2 - 1) : Int) ≤ r ∧ r ≤ 2 ^ (2 - 1) - 1 ∧
      ((2 ^ 2 : Int) ∣ (7 - r)) ∧
      ∀ r' : Int, -(2 ^ (2 - 1) : Int) ≤ r' → r' ≤ 2 ^ (2 - 1) - 1 →
        ((2 ^ 2 : Int) ∣ (7 - r')) → r' = r) :=
  ⟨c6_integer_masking.1 3 (-5), c6_integer_masking.2 2 7 (by norm_num)⟩

/-! ## Claim C7 — slice write/read round trip -/

/-- Claim C7, counterexample: the claim fails for `Signed` receivers.
Take `x = Signed(0, nbits=4)`, write `x[2:0] = 3`, then read `x[2:0]`:
the write stores `3`, but the read rebuilds the slice as
`Signed(3, nbits=2)` whose constrain re-wraps it to `-1`, not
`3 = 3 mod 2^(2-0)` as the claim requires. -/
theorem c7_signed_counterexample :
    setitemK .signed 4 2 0 0 3 = some 3 ∧
    getitemK .signed 2 0 3 = some (-1) ∧
    (3:Int) % 2 ^ (2 - 0) = 3 ∧ (-1 : Int) ≠ 3 := by
  refine ⟨?_, ?_, by decide, by decide⟩
  · rfl
  · rfl

/-- Claim C7 (amended): for `0 ≤ lo ≤ hi ≤ w`, writing `x[hi:lo] = y` and
reading `x[hi:lo]` back returns `y mod 2^(hi-lo)` for an `Unsigned`
receiver, and for a `Signed` receiver (with `lo < hi`) a value congruent
to `y` modulo `2^(hi-lo)` (the slice re-wrapped into signed range, which
can differ from `y mod 2^(hi-lo)` — see the counterexample); in both
cases all bits of `x` outside `[lo, hi)` (below the width `w`, for
`Signed`) are unchanged by the write. -/
theorem c7_slice_roundtrip :
    (∀ (w lo hi : Nat) (v y : Int), lo ≤ hi → hi ≤ w → 0 ≤ v → v < 2 ^ w →
      ∃ v', setitemK .unsigned w hi lo v y = some v' ∧
        getitemK .unsigned hi lo v' = some (y % 2 ^ (hi - lo)) ∧
        ∀ k : Nat, k < lo ∨ hi ≤ k → bitAt v' k = bitAt v k) ∧
    (∀ (w lo hi : Nat) (v y : Int), lo < hi → hi ≤ w →
      ∃ v' r, setitemK .signed w hi lo v y = some v' ∧
        getitemK .signed hi lo v' = some r ∧
        ((2 ^ (hi - lo) : Int) ∣ (r - y)) ∧
        ∀ k : Nat, k < lo ∨ hi ≤ k → k < w → bitAt v' k = bitAt v k) := by
  constructor
  · intro w lo hi v y hlh hhw hv0 hvlt
    have hnot : ¬ lo > hi := by omega
    obtain ⟨hS0, hSlt⟩ := splice_bound w lo hi hlh hhw v y hv0 hvlt
    refine ⟨v - ((v / 2 ^ lo) % 2 ^ (hi - lo)) * 2 ^ lo + (y % 2 ^ (hi - lo)) * 2 ^ lo,
      ?_, ?_, ?_⟩
    · rw [setitemK, if_neg hnot]
      simp only [constrainK, Option.some_inj]
      exact Int.emod_eq_of_lt hS0 hSlt
    · rw [getitemK, if_neg hnot]
      simp only [constrainK, Option.some_inj]
      rw [splice_read lo hi hlh v y, Int.emod_emod]
    · intro k hk
      rcases hk with hk | hk
      · exact splice_low lo hi v y hk
      · exact splice_high lo hi hlh v y hk
  · intro w lo hi v y hlh hhw
    have hw1 : 1 ≤ w := by omega
    have hm1 : 1 ≤ hi - lo := by omega
    have hlh' : lo ≤ hi := by omega
    have hnot : ¬ lo > hi := by omega
    obtain ⟨v', hv', hvb1, hvb2, hvdvd⟩ :=
      signedConstrain_spec w hw1
        (v - ((v / 2 ^ lo) % 2 ^ (hi - lo)) * 2 ^ lo + (y % 2 ^ (hi - lo)) * 2 ^ lo)
    have hL : (0:Int) < 2 ^ lo := by positivity
    have hM : (0:Int) < 2 ^ (hi - lo) := by positivity
    obtain ⟨t, ht⟩ := hvdvd
    have hveq : v' =
        (v - ((v / 2 ^ lo) % 2 ^ (hi - lo)) * 2 ^ lo + (y % 2 ^ (hi - lo)) * 2 ^ lo)
          + (-t) * 2 ^ w := by linear_combination -ht
    have hwl : (2:Int) ^ w = 2 ^ (w - lo) * 2 ^ lo := by
      rw [← pow_add]; congr 1; omega
    have hwm : (2:Int) ^ (w - lo) = 2 ^ (hi - lo) * 2 ^ (w - hi) := by
      rw [← pow_add]; congr 1; omega
    have hdivL : v' / 2 ^ lo =
        (v - ((v / 2 ^ lo) % 2 ^ (hi - lo)) * 2 ^ lo + (y % 2 ^ (hi - lo)) * 2 ^ lo) / 2 ^ lo
          + (-t) * 2 ^ (w - lo) := by
      rw [hveq]
      have he : (v - ((v / 2 ^ lo) % 2 ^ (hi - lo)) * 2 ^ lo + (y % 2 ^ (hi - lo)) * 2 ^ lo)
          + (-t) * 2 ^ w
          = (v - ((v / 2 ^ lo) % 2 ^ (hi - lo)) * 2 ^ lo + (y % 2 ^ (hi - lo)) * 2 ^ lo)
            + ((-t) * 2 ^ (w - lo)) * 2 ^ lo := by
        rw [hwl]; ring
      rw [he, Int.add_mul_ediv_right _ _ (ne_of_gt hL)]
    have hmodM : (v' / 2 ^ lo) % 2 ^ (hi - lo) = y % 2 ^ (hi - lo) := by
      rw [hdivL]
      have he : (v - ((v / 2 ^ lo) % 2 ^ (hi - lo)) * 2 ^ lo + (y % 2 ^ (hi - lo)) * 2 ^ lo)
            / 2 ^ lo + (-t) * 2 ^ (w - lo)
          = (v - ((v / 2 ^ lo) % 2 ^ (hi - lo)) * 2 ^ lo + (y % 2 ^ (hi - lo)) * 2 ^ lo)
            / 2 ^ lo + 2 ^ (hi - lo) * ((-t) * 2 ^ (w - hi)) := by
        rw [hwm]; ring
      rw [he, Int.add_mul_emod_self_left, splice_read lo hi hlh' v y]
    obtain ⟨r, hr, hrb1, hrb2, hrdvd⟩ :=
      signedConstrain_spec (hi - lo) hm1 ((v' / 2 ^ lo) % 2 ^ (hi - lo))
    refine ⟨v', r, ?_, ?_, ?_, ?_⟩
    · rw [setitemK, if_neg hnot]
      exact hv'
    · rw [getitemK, if_neg hnot]
      exact hr
    · have h1 : (2 ^ (hi - lo) : Int) ∣ (y % 2 ^ (hi - lo) - r) := by
        rw [← hmodM]
        exact hrdvd
      have h2 : (2 ^ (hi - lo) : Int) ∣ (y - y % 2 ^ (hi - lo)) := by
        rw [Int.emod_def]
        exact ⟨y / 2 ^ (hi - lo), by ring⟩
      have h3 : r - y = -((y % 2 ^ (hi - lo) - r) + (y - y % 2 ^ (hi - lo))) := by ring
      rw [h3]
      exact dvd_neg.mpr (dvd_add h1 h2)
    · intro k hk hkw
      have hb : bitAt v' k = bitAt
            (v - ((v / 2 ^ lo) % 2 ^ (hi - lo)) * 2 ^ lo + (y % 2 ^ (hi - lo)) * 2 ^ lo) k := by
        apply bitAt_congr w _ hkw
        exact ⟨-t, by linear_combination -ht⟩
      rw [hb]
      rcases hk with hk | hk
      · exact splice_low lo hi v y hk
      · exact splice_high lo hi hlh' v y hk

/-- Claim C7, witness: both halves at concrete inputs — an `Unsigned`
width-8 value `0xA5`, writing `y = 11` into bits `[2, 6)`, and a `Signed`
width-8 value, writing into bits `[1, 4)`. -/
theorem c7_slice_roundtrip_witness :
    (∃ v', setitemK .unsigned 8 6 2 165 11 = some v' ∧
      getitemK .unsigned 6 2 v' = some (11 % 2 ^ (6 - 2)) ∧
      ∀ k : Nat, k < 2 ∨ 6 ≤ k → bitAt v' k = bitAt 165 k) ∧
    (∃ v' r, setitemK .signed 8 4 1 (-3) 5 = some v' ∧
      getitemK .signed 4 1 v' = some r ∧
      ((2 ^ (4 - 1) : Int) ∣ (r - 5)) ∧
      ∀ k : Nat, k < 1 ∨ 4 ≤ k → k < 8 → bitAt v' k = bitAt (-3) k) :=
  ⟨c7_slice_roundtrip.1 8 2 6 165 11 (by norm_num) (by norm_num) (by norm_num) (by norm_num),
   c7_slice_roundtrip.2 8 1 4 (-3) 5 (by norm_num) (by norm_num)⟩

/-! ## Claim C10 — single-index writes are no-ops, single-index reads are not -/

/-- Claim C10: for a single (non-slice) index `i`, `__setitem__` runs with
`hi = lo = i`, so the mask has zero width and the write leaves any
already-constrained value completely unchanged, for every class of the
`Integer` family; `__getitem__` instead uses `hi = i + 1, lo = i` and
returns bit `i`.  Hence single-index reads and writes are not inverses:
writing `1` to bit `0` of `Unsigned(0, 4)` and reading bit `0` back
yields `0`, not `1`. -/
theorem c10_single_index :
    (∀ (k : IKind) (w i : Nat) (v y : Int), constrainK k w v = some v →
      setitemIdx k w i v y = some v) ∧
    (∀ (i : Nat) (v : Int), getitemIdx .unsigned i v = some (bitAt v i)) ∧
    (setitemIdx .unsigned 4 0 0 1 = some 0 ∧ getitemIdx .unsigned 0 0 = some 0 ∧ (0:Int) ≠ 1) := by
  refine ⟨?_, ?_, by decide, by decide, by decide⟩
  · intro k w i v y hc
    rw [setitemIdx, setitemK, if_neg (lt_irrefl i)]
    have h0 : i - i = 0 := Nat.sub_self i
    rw [h0]
    simp only [pow_zero, Int.emod_one, mul_one, zero_mul, Int.sub_zero, Int.add_zero]
    exact hc
  · intro i v
    rw [getitemIdx, getitemK, if_neg (by omega)]
    have h1 : i + 1 - i = 1 := by omega
    rw [h1]
    simp only [constrainK, pow_one, Int.emod_emod, Option.some_inj]
    rfl

/-- Claim C10, witness: a concrete already-constrained `Unsigned(5, 4)`
is untouched by the single-index write `x[2] = 7`, and the single-index
read `x[2]` returns bit 2. -/
theorem c10_single_index_witness :
    setitemIdx .unsigned 4 2 5 7 = some 5 ∧ getitemIdx .unsigned 2 5 = some (bitAt 5 2) :=
  ⟨c10_single_index.1 .unsigned 4 2 5 7 (by decide), c10_single_index.2.1 2 5⟩

/-! ## Claim C2 — record assignment and non-hardware fields -/

/-- Claim C2: the claim is right about the intent but the code is wrong.
`HwType.assign` recurses into hardware-value fields by name (the
`.num`/`.sub` fields below are updated from the like-named source
fields), but for a non-hardware field the statement
`attr_value = deepcopy(vars(other)[attr_name])` only rebinds a local
variable, so the destination attribute is left unchanged — contradicting
both the claim and the library's own comment ("Class members of other
types will be replaced with a deepcopy of the corresponding member of
the source object").  Concretely: assigning
`{a: 2 (non-hw), b: Unsigned(9, 4), c: {d: Unsigned(10, 3)}}` into
`{a: 1 (non-hw), b: Unsigned(0, 4), c: {d: Unsigned(1, 3)}}` updates `b`
and `c.d` but leaves `a = 1`. -/
theorem c2_record_assign_bug :
    hwAssign 5 [(0, Fld.other 1), (1, Fld.num 4 0), (2, Fld.sub [(3, Fld.num 3 1)])]
        [(0, Fld.other 2), (1, Fld.num 4 9), (2, Fld.sub [(3, Fld.num 3 10)])]
      = some [(0, Fld.other 1), (1, Fld.num 4 9), (2, Fld.sub [(3, Fld.num 3 2)])] ∧
    (some [(0, Fld.other 1), (1, Fld.num 4 9), (2, Fld.sub [(3, Fld.num 3 2)])] : Option (List (Nat × Fld)))
      ≠ some [(0, Fld.other 2), (1, Fld.num 4 9), (2, Fld.sub [(3, Fld.num 3 2)])] := by
  constructor
  · rfl
  · simp

/-! ## Claim C3 — type checking of signal writes and connections -/

/-- Claim C3: the claim is right about the intent but the code is wrong.
Writing an `Array` of length 2 to a signal whose cell-0 object is an
`Array` of length 3 is **accepted** by the `nxt` setter, and the
corresponding connection is accepted by `Signal._check_type`, even
though `Array.check_type` — the recursive structural predicate the spec
refers to, and the one `Array.assign` itself enforces — rejects the
pair.  The signal code looks up the attribute name `_check_type`
(underscore), while `Array` defines `check_type`, so the length/element
check never runs on writes or connections. -/
theorem c3_array_write_check_bug :
    nxtSetterAccepts (.array [.wire 0, .wire 0, .wire 0]) (.array [.wire 0, .wire 0]) = true ∧
    connectAccepts (.array [.wire 0, .wire 0, .wire 0]) (.array [.wire 0, .wire 0]) = true ∧
    checkTypeV (.array [.wire 0, .wire 0, .wire 0]) (.array [.wire 0, .wire 0]) = false := by
  refine ⟨by decide, by decide, by decide⟩

/-! ## Lemmas about the setter's shift loop and the commit loop -/

theorem writeNexts_map_obj (v : Int) (c : List Cell) :
    (writeNexts v c).map Cell.obj = c.map Cell.obj := by
  induction c generalizing v with
  | nil => rfl
  | cons hd tl ih => simp [writeNexts, ih]

theorem writeNexts_map_next (v : Int) (c : List Cell) :
    (writeNexts v c).map Cell.next = (v :: c.map Cell.obj).take c.length := by
  induction c generalizing v with
  | nil => rfl
  | cons hd tl ih => simp [writeNexts, ih]

theorem writeSetter_map_obj (v : Int) (c : List Cell) :
    (writeCellsSetter v c).map Cell.obj = c.map Cell.obj := by
  cases c with
  | nil => rfl
  | cons hd tl =>
    rw [writeCellsSetter, writeNexts_map_obj]
    rfl

theorem writeSetter_map_next (v : Int) (c : List Cell) :
    (writeCellsSetter v c).map Cell.next = (v :: c.map Cell.obj).take c.length := by
  cases c with
  | nil => rfl
  | cons hd tl =>
    rw [writeCellsSetter, writeNexts_map_next]
    rfl

theorem writeSetter_headPend (v : Int) (c : List Cell) (h : c ≠ []) :
    headPend (writeCellsSetter v c) = true := by
  cases c with
  | nil => exact absurd rfl h
  | cons hd tl => rfl

theorem commit_filter_eq (l : List Cell) :
    ((l.filter (fun cl => cl.obj != cl.next)).length)
      = (((l.map Cell.obj).zip (l.map Cell.next)).filter (fun p => p.1 != p.2)).length := by
  induction l with
  | nil => rfl
  | cons hd tl ih =>
    simp only [List.zip_map'] at ih ⊢
    by_cases h : hd.obj = hd.next
    · simp [List.filter_cons, h, ih]
    · simp [List.filter_cons, h, ih]

theorem commit_pending (c : List Cell) (h : headPend c = true) :
    (commitSig c).1.map Cell.obj = c.map Cell.next ∧
    (commitSig c).1.map Cell.next = c.map Cell.next ∧
    headPend (commitSig c).1 = false ∧
    (commitSig c).2
      = (((c.map Cell.obj).zip (c.map Cell.next)).filter (fun p => p.1 != p.2)).length := by
  cases c with
  | nil => simp [headPend, dCell] at h
  | cons hd tl =>
    rw [commitSig, if_pos h]
    refine ⟨?_, ?_, ?_, ?_⟩
    · simp [commitCells]
    · simp [commitCells]
    · simp [commitCells, headPend]
    · have he := commit_filter_eq ({ hd with pend := false } :: tl)
      simp only [commitCells]
      rw [he]
      simp

theorem commit_nopend (c : List Cell) (h : headPend c = false) :
    commitSig c = (c, 0) := by
  rw [commitSig, h]
  rfl

theorem write_then_commit (v : Int) (c : List Cell) (h : c ≠ []) :
    (commitSig (writeCellsSetter v c)).1.map Cell.obj = v :: (c.map Cell.obj).dropLast ∧
    (commitSig (writeCellsSetter v c)).2
      = (((c.map Cell.obj).zip (v :: (c.map Cell.obj).dropLast)).filter
          (fun p => p.1 != p.2)).length ∧
    headPend (commitSig (writeCellsSetter v c)).1 = false := by
  have hp := writeSetter_headPend v c h
  obtain ⟨h1, h2, h3, h4⟩ := commit_pending (writeCellsSetter v c) hp
  have hobj := writeSetter_map_obj v c
  have hnext := writeSetter_map_next v c
  have htake : (v :: c.map Cell.obj).take c.length = v :: (c.map Cell.obj).dropLast := by
    cases c with
    | nil => exact absurd rfl h
    | cons hd tl =>
      rw [List.dropLast_eq_take]
      simp [List.take_cons]
  refine ⟨?_, ?_, h3⟩
  · rw [h1, hnext, htake]
  · rw [h4, hobj, hnext, htake]

/-! ## Claim C4 — what the commit phase actually does -/

/-- Claim C4, counterexample: the pipeline shift chain is **not**
propagated during the commit.  Take a two-cell signal in the state
`[{obj 1, next 1, pend}, {obj 0, next 0}]` (reachable for a pipelined
signal whose pending value was staged through the `nxt` getter, which
marks cell 0 pending without running the setter's shift loop).  The
claim says the commit first assigns cell 1's pending ← cell 0's current
(= 1) and then copies, so the currents would become `[1, 1]`; the code's
commit only copies each cell's own pending value and yields `[1, 0]`. -/
theorem c4_commit_shift_counterexample :
    (commitSig [⟨1, 1, true⟩, ⟨0, 0, false⟩]).1.map Cell.obj = [1, 0] ∧
    ([1, 0] : List Int) ≠ [1, 1] := by
  constructor
  · rfl
  · decide

/-- Claim C4 (amended): in the commit phase, for each signal whose
**first** cell is pending, the `updated` counter is incremented once per
cell whose pending value differs from its current value, every cell's
pending value is copied into its current value, and the first cell's
pending flag is cleared; signals with no pending first cell are left
untouched.  The pipeline shift (cell `i`'s pending ← cell `i-1`'s
current, `i ≥ 1`) is performed by the `nxt` **setter** at write time,
not by the commit, so a setter write of `v` followed by one commit
yields currents `v :: (old currents minus the last)` — the stage
transfer the claim describes — with the counter comparing the old
currents against that shifted sequence. -/
theorem c4_commit_phase :
    (∀ c : List Cell, headPend c = true →
      (commitSig c).1.map Cell.obj = c.map Cell.next ∧
      (commitSig c).1.map Cell.next = c.map Cell.next ∧
      headPend (commitSig c).1 = false ∧
      (commitSig c).2
        = (((c.map Cell.obj).zip (c.map Cell.next)).filter (fun p => p.1 != p.2)).length) ∧
    (∀ c : List Cell, headPend c = false → commitSig c = (c, 0)) ∧
    (∀ (v : Int) (c : List Cell), c ≠ [] →
      (commitSig (writeCellsSetter v c)).1.map Cell.obj = v :: (c.map Cell.obj).dropLast ∧
      (commitSig (writeCellsSetter v c)).2
        = (((c.map Cell.obj).zip (v :: (c.map Cell.obj).dropLast)).filter
            (fun p => p.1 != p.2)).length ∧
      headPend (commitSig (writeCellsSetter v c)).1 = false) :=
  ⟨commit_pending, commit_nopend, write_then_commit⟩

/-- Claim C4, witness: the three parts of the amended claim at concrete
cell lists. -/
theorem c4_commit_phase_witness :
    ((commitSig [⟨2, 3, true⟩, ⟨4, 5, false⟩]).1.map Cell.obj
        = [⟨2, 3, true⟩, ⟨4, 5, false⟩].map Cell.next ∧
      (commitSig [⟨2, 3, true⟩, ⟨4, 5, false⟩]).1.map Cell.next
        = [⟨2, 3, true⟩, ⟨4, 5, false⟩].map Cell.next ∧
      headPend (commitSig [⟨2, 3, true⟩, ⟨4, 5, false⟩]).1 = false ∧
      (commitSig [⟨2, 3, true⟩, ⟨4, 5, false⟩]).2
        = ((([⟨2, 3, true⟩, ⟨4, 5, false⟩].map Cell.obj).zip
            ([⟨2, 3, true⟩, ⟨4, 5, false⟩].map Cell.next)).filter
              (fun p => p.1 != p.2)).length) ∧
    (commitSig [⟨2, 3, false⟩] = ([⟨2, 3, false⟩], 0)) ∧
    ((commitSig (writeCellsSetter 7 [⟨2, 3, true⟩, ⟨4, 5, false⟩])).1.map Cell.obj
        = 7 :: ([⟨2, 3, true⟩, ⟨4, 5, false⟩].map Cell.obj).dropLast ∧
      (commitSig (writeCellsSetter 7 [⟨2, 3, true⟩, ⟨4, 5, false⟩])).2
        = ((([⟨2, 3, true⟩, ⟨4, 5, false⟩].map Cell.obj).zip
            (7 :: ([⟨2, 3, true⟩, ⟨4, 5, false⟩].map Cell.obj).dropLast)).filter
              (fun p => p.1 != p.2)).length ∧
      headPend (commitSig (writeCellsSetter 7 [⟨2, 3, true⟩, ⟨4, 5, false⟩])).1 = false) :=
  ⟨c4_commit_phase.1 [⟨2, 3, true⟩, ⟨4, 5, false⟩] (by decide),
   c4_commit_phase.2.1 [⟨2, 3, false⟩] (by decide),
   c4_commit_phase.2.2 7 [⟨2, 3, true⟩, ⟨4, 5, false⟩] (by decide)⟩

/-! ## Claim C5 — the evaluate phase and edge flags -/

/-- Claim C5, counterexample: the evaluate phase is gated on the
**first** cell's pending flag, not the last cell's.  A two-cell signal
in state `[{obj 1, next 1, pend}, {obj 0, next 1}]` — reachable for
`Signal(Wire(), ppl=2)` by writing 1, committing, and writing 1 again —
has **no** pending write at its last cell, yet the code computes
`posedge = true` for it; the claim says a signal with no pending write
at the last cell has all edge flags cleared for the iteration. -/
theorem c5_evaluate_counterexample :
    (evalPhaseSig ⟨[⟨1, 1, true⟩, ⟨0, 1, false⟩], false, false, false, false⟩).posedge = true ∧
    (lastCell [⟨1, 1, true⟩, ⟨0, 1, false⟩]).pend = false := by
  constructor
  · rfl
  · rfl

/-- Claim C5 (amended): during the evaluate phase, for each signal whose
**first** cell has a pending write (the flag every `nxt` access sets; for
pipeline depth 1 the first cell is also the last), the edge flags are
computed from the last cell's pre-commit state as
`changed = (pending != current)`, `posedge = (pending != 0) and
(current == 0)`, `negedge = (pending == 0) and (current != 0)`, with the
sticky transition flag set to `changed`; a signal whose first cell has
no pending write has `changed`, `posedge` and `negedge` all cleared for
that iteration (and its transition flag kept); the cells themselves are
not touched. -/
theorem c5_evaluate_phase (s : SigView) :
    ((evalPhaseSig s).changed = true ↔
      headPend s.cells = true ∧ (lastCell s.cells).next ≠ (lastCell s.cells).obj) ∧
    ((evalPhaseSig s).posedge = true ↔
      headPend s.cells = true ∧ (lastCell s.cells).next ≠ 0 ∧ (lastCell s.cells).obj = 0) ∧
    ((evalPhaseSig s).negedge = true ↔
      headPend s.cells = true ∧ (lastCell s.cells).next = 0 ∧ (lastCell s.cells).obj ≠ 0) ∧
    ((evalPhaseSig s).transition
      = if headPend s.cells then changedEvalC s.cells else s.transition) ∧
    (evalPhaseSig s).cells = s.cells := by
  by_cases h : headPend s.cells = true
  · simp [evalPhaseSig, h, changedEvalC, posedgeEvalC, negedgeEvalC, and_assoc]
  · simp only [Bool.not_eq_true] at h
    simp [evalPhaseSig, h]

/-! ## Lemmas about the connection graph -/

theorem getD_set_self {α} (l : List α) (i : Nat) (x d : α) (h : i < l.length) :
    (l.set i x).getD i d = x := by
  simp [List.getD_eq_getElem?_getD, List.getElem?_set_self h]

theorem getD_set_ne {α} (l : List α) {i j : Nat} (x d : α) (h : i ≠ j) :
    (l.set i x).getD j d = l.getD j d := by
  simp [List.getD_eq_getElem?_getD, List.getElem?_set_ne h]

theorem list_set_getD {α} (l : List α) (i : Nat) (d : α) :
    l.set i (l.getD i d) = l := by
  induction l generalizing i with
  | nil => rfl
  | cons hd tl ih =>
    cases i with
    | zero => rfl
    | succ n =>
      show hd :: tl.set n (tl.getD n d) = hd :: tl
      rw [ih]

theorem foldlM_ok_const {fuel : Nat} {f : Nat} {s : Net} (lst : List Nat)
    (h : ∀ g ∈ lst, connect fuel g f s = .ok s) :
    lst.foldlM (fun st g => connect fuel g f st) s = .ok s := by
  induction lst with
  | nil => rfl
  | cons g gs ih =>
    rw [List.foldlM_cons, h g (List.mem_cons_self g gs)]
    show gs.foldlM (fun st g => connect fuel g f st) s = .ok s
    exact ih (fun g' hg' => h g' (List.mem_cons_of_mem g hg'))

theorem connect_settled : ∀ (fuel : Nat) (s : Net) (f d : Nat),
    settled fuel s f d = true → connect fuel f d s = .ok s := by
  intro fuel
  induction fuel with
  | zero =>
    intro s f d h
    simp [settled] at h
  | succ fuel ih =>
    intro s f d h
    rw [settled] at h
    simp only [Bool.and_eq_true, beq_iff_eq, decide_eq_true_eq, List.all_eq_true] at h
    obtain ⟨⟨⟨hdrv, hcid⟩, hmem⟩, hall⟩ := h
    have hstep : connectStep s f d = s := by
      have hm1 : { metaOf s f with cid := cidOf s d, driver := some d } = metaOf s f := by
        rw [← hcid, ← hdrv]
        rfl
      have hpt : connectPoint s f d = s := by
        rw [connectPoint, hm1]
        show ({ s with sigs := s.sigs.set f (s.sigs.getD f dMeta) } : Net) = s
        rw [list_set_getD]
      rw [connectStep, hpt, connectRecord, if_pos hmem]
    rw [connect]
    rw [if_neg (by simp [hdrv])]
    rw [if_pos (show netCheckType s f d = true from rfl)]
    rw [hstep]
    exact foldlM_ok_const _ (fun g hg => ih s g f (hall g hg))

theorem setSig_of_ge (s : Net) (i : Nat) (m : SigMeta) (h : s.sigs.length ≤ i) :
    setSig s i m = s := by
  rw [setSig, List.set_eq_of_length_le h]

theorem metaOf_setSig_self (s : Net) (i : Nat) (m : SigMeta) (h : i < s.sigs.length) :
    metaOf (setSig s i m) i = m :=
  getD_set_self _ _ _ _ h

theorem metaOf_setSig_ne (s : Net) {i j : Nat} (m : SigMeta) (h : i ≠ j) :
    metaOf (setSig s i m) j = metaOf s j :=
  getD_set_ne _ _ _ h

theorem connectStep_heap (s : Net) (f d : Nat) : (connectStep s f d).heap = s.heap := by
  rw [connectStep, connectRecord]
  by_cases h : f ∈ drivesOf (connectPoint s f d) d
  · rw [if_pos h]; rfl
  · rw [if_neg h]; rfl

theorem connectStep_len (s : Net) (f d : Nat) :
    (connectStep s f d).sigs.length = s.sigs.length := by
  rw [connectStep, connectRecord]
  by_cases h : f ∈ drivesOf (connectPoint s f d) d
  · rw [if_pos h]; simp [connectPoint, setSig]
  · rw [if_neg h]; simp [connectPoint, setSig]

theorem cid_connectPoint (s : Net) (f d : Nat) (hf : f < s.sigs.length) (j : Nat) :
    cidOf (connectPoint s f d) j = if j = f then cidOf s d else cidOf s j := by
  by_cases h : j = f
  · subst h
    rw [if_pos rfl, connectPoint, cidOf, metaOf_setSig_self _ _ _ hf]
  · rw [if_neg h, connectPoint, cidOf, metaOf_setSig_ne _ _ (Ne.symm h)]
    rfl

theorem cid_connectRecord (st : Net) (f d : Nat) (j : Nat) :
    cidOf (connectRecord st f d) j = cidOf st j := by
  rw [connectRecord]
  by_cases h : f ∈ drivesOf st d
  · rw [if_pos h]
  · rw [if_neg h]
    by_cases hj : j = d
    · subst hj
      by_cases hr : j < st.sigs.length
      · rw [cidOf, metaOf_setSig_self _ _ _ hr]
        rfl
      · rw [setSig_of_ge _ _ _ (by omega)]
    · rw [cidOf, metaOf_setSig_ne _ _ (Ne.symm hj)]
      rfl

theorem cid_connectStep (s : Net) (f d : Nat) (hf : f < s.sigs.length) (j : Nat) :
    cidOf (connectStep s f d) j = if j = f then cidOf s d else cidOf s j := by
  rw [connectStep, cid_connectRecord, cid_connectPoint s f d hf]

theorem drives_connectPoint (s : Net) (f d : Nat) (j : Nat) :
    drivesOf (connectPoint s f d) j = drivesOf s j := by
  by_cases h : j = f
  · subst h
    by_cases hr : j < s.sigs.length
    · rw [connectPoint, drivesOf, metaOf_setSig_self _ _ _ hr]
      rfl
    · rw [connectPoint, setSig_of_ge _ _ _ (by omega)]
  · rw [connectPoint, drivesOf, metaOf_setSig_ne _ _ (Ne.symm h)]
    rfl

theorem drives_connectStep (s : Net) (f d : Nat) (j : Nat) :
    drivesOf (connectStep s f d) j = drivesOf s j ∨
      (j = d ∧ drivesOf (connectStep s f d) j = drivesOf s j ++ [f]) := by
  rw [connectStep, connectRecord]
  by_cases h : f ∈ drivesOf (connectPoint s f d) d
  · rw [if_pos h]
    left
    exact drives_connectPoint s f d j
  · rw [if_neg h]
    by_cases hj : j = d
    · subst hj
      by_cases hr : j < (connectPoint s f j).sigs.length
      · right
        refine ⟨rfl, ?_⟩
        rw [drivesOf, metaOf_setSig_self _ _ _ hr]
        show drivesOf (connectPoint s f j) j ++ [f] = drivesOf s j ++ [f]
        rw [drives_connectPoint s f j j]
      · left
        rw [setSig_of_ge _ _ _ (by omega)]
        exact drives_connectPoint s f j j
    · left
      rw [drivesOf, metaOf_setSig_ne _ _ (Ne.symm hj)]
      exact drives_connectPoint s f d j

theorem drives_connectStep_mono (s : Net) (f d : Nat) (j : Nat) :
    ∀ g ∈ drivesOf s j, g ∈ drivesOf (connectStep s f d) j := by
  intro g hg
  rcases drives_connectStep s f d j with h | ⟨_, h⟩
  · rw [h]; exact hg
  · rw [h]; exact List.mem_append_left _ hg

theorem drives_connectStep_f_sub (s : Net) (f d : Nat) :
    ∀ g ∈ drivesOf (connectStep s f d) f, g ∈ drivesOf s f ∨ g = f := by
  intro g hg
  rcases drives_connectStep s f d f with h | ⟨_, h⟩
  · rw [h] at hg; exact Or.inl hg
  · rw [h] at hg
    rcases List.mem_append.mp hg with h1 | h1
    · exact Or.inl h1
    · exact Or.inr (List.mem_singleton.mp h1)

theorem metaOf_mem (s : Net) {j : Nat} (h : j < s.sigs.length) : metaOf s j ∈ s.sigs := by
  rw [metaOf, List.getD_eq_getElem?_getD, List.getElem?_eq_getElem h]
  exact List.getElem_mem _

theorem closed_mem {s : Net} (hc : closedB s = true) {j g : Nat} (hg : g ∈ drivesOf s j) :
    g < s.sigs.length := by
  rw [closedB, List.all_eq_true] at hc
  by_cases h : j < s.sigs.length
  · have h2 := hc (metaOf s j) (metaOf_mem s h)
    rw [List.all_eq_true] at h2
    exact of_decide_eq_true (h2 g hg)
  · rw [drivesOf, metaOf, List.getD_eq_getElem?_getD, List.getElem?_eq_none (by omega)] at hg
    simp [dMeta] at hg

theorem closedB_connectStep (s : Net) (f d : Nat) (hc : closedB s = true)
    (hf : f < s.sigs.length) : closedB (connectStep s f d) = true := by
  have hc' := hc
  rw [closedB, List.all_eq_true]
  intro m hm
  rw [List.all_eq_true]
  intro g hg
  rw [connectStep_len]
  rw [closedB, List.all_eq_true] at hc
  rw [connectStep, connectRecord] at hm
  by_cases hpr : f ∈ drivesOf (connectPoint s f d) d
  · rw [if_pos hpr] at hm
    rw [connectPoint, setSig] at hm
    rcases List.mem_or_eq_of_mem_set hm with h1 | h1
    · have h3 := hc m h1
      rw [List.all_eq_true] at h3
      exact h3 g hg
    · subst h1
      simp only [] at hg
      have h3 := hc (metaOf s f) (metaOf_mem s hf)
      rw [List.all_eq_true] at h3
      exact h3 g hg
  · rw [if_neg hpr] at hm
    rw [setSig] at hm
    rcases List.mem_or_eq_of_mem_set hm with h1 | h1
    · rw [connectPoint, setSig] at h1
      rcases List.mem_or_eq_of_mem_set h1 with h2 | h2
      · have h3 := hc m h2
        rw [List.all_eq_true] at h3
        exact h3 g hg
      · subst h2
        simp only [] at hg
        have h3 := hc (metaOf s f) (metaOf_mem s hf)
        rw [List.all_eq_true] at h3
        exact h3 g hg
    · subst h1
      simp only [] at hg
      rw [drives_connectPoint] at hg
      rcases List.mem_append.mp hg with h2 | h2
      · exact decide_eq_true (closed_mem hc' h2)
      · rw [List.mem_singleton.mp h2]
        exact decide_eq_true hf

theorem follows_mono {s s' : Net}
    (hm : ∀ j, ∀ g ∈ drivesOf s j, g ∈ drivesOf s' j) :
    ∀ {f g}, Follows s f g → Follows s' f g := by
  intro f g h
  induction h with
  | head hg => exact Follows.head (hm _ _ hg)
  | tail hg _ ih => exact Follows.tail (hm _ _ hg) ih

theorem connect_fold_spec (fuel : Nat)
    (ih : ∀ (g d : Nat) (t t' : Net), connect fuel g d t = .ok t' →
      g < t.sigs.length → d < t.sigs.length → closedB t = true →
      t'.heap = t.heap ∧ t'.sigs.length = t.sigs.length ∧ closedB t' = true ∧
      (∀ j, ∀ x ∈ drivesOf t j, x ∈ drivesOf t' j) ∧
      (∀ j, cidOf t' j = cidOf t j ∨ cidOf t' j = cidOf t d) ∧
      cidOf t' g = cidOf t d ∧
      (∀ h2, Follows t g h2 → cidOf t' h2 = cidOf t d)) :
    ∀ (lst : List Nat) (f C : Nat) (s0 s' : Net),
      lst.foldlM (fun st g => connect fuel g f st) s0 = .ok s' →
      (∀ g ∈ lst, g < s0.sigs.length) → f < s0.sigs.length → closedB s0 = true →
      cidOf s0 f = C →
      s'.heap = s0.heap ∧ s'.sigs.length = s0.sigs.length ∧ closedB s' = true ∧
      (∀ j, ∀ x ∈ drivesOf s0 j, x ∈ drivesOf s' j) ∧
      (∀ j, cidOf s' j = cidOf s0 j ∨ cidOf s' j = C) ∧
      cidOf s' f = C ∧
      (∀ g ∈ lst, cidOf s' g = C ∧ ∀ h2, Follows s0 g h2 → cidOf s' h2 = C) := by
  intro lst
  induction lst with
  | nil =>
    intro f C s0 s' h hr hf hc hcid
    rw [List.foldlM_nil] at h
    have hs : s0 = s' := by
      have h2 : (Except.ok s0 : Except ConnErr Net) = .ok s' := h
      exact Except.ok.inj h2
    subst hs
    exact ⟨rfl, rfl, hc, fun j x hx => hx, fun j => Or.inl rfl, hcid,
      fun g hg => absurd hg (by simp)⟩
  | cons g gs ihl =>
    intro f C s0 s' h hr hf hc hcid
    rw [List.foldlM_cons] at h
    cases hcg : connect fuel g f s0 with
    | error e =>
      rw [hcg] at h
      simp only [Bind.bind, Except.bind] at h
      exact Except.noConfusion h
    | ok s1 =>
      rw [hcg] at h
      simp only [Bind.bind, Except.bind] at h
      obtain ⟨hheap1, hlen1, hc1, hmono1, hcids1, hg1, hfol1⟩ :=
        ih g f s0 s1 hcg (hr g (List.mem_cons_self g gs)) hf hc
      have hf1 : cidOf s1 f = C := by
        rcases hcids1 f with h2 | h2
        · rw [h2, hcid]
        · rw [h2, hcid]
      obtain ⟨hheap2, hlen2, hc2, hmono2, hcids2, hf2, hfol2⟩ :=
        ihl f C s1 s' h
          (fun g' hg' => by rw [hlen1]; exact hr g' (List.mem_cons_of_mem g hg'))
          (by rw [hlen1]; exact hf) hc1 hf1
      refine ⟨?_, ?_, hc2, ?_, ?_, hf2, ?_⟩
      · rw [hheap2, hheap1]
      · rw [hlen2, hlen1]
      · intro j x hx
        exact hmono2 j x (hmono1 j x hx)
      · intro j
        rcases hcids2 j with h2 | h2
        · rcases hcids1 j with h3 | h3
          · left
            rw [h2, h3]
          · right
            rw [h2, h3, hcid]
        · right
          exact h2
      · intro g' hg'
        rcases List.mem_cons.mp hg' with h2 | h2
        · subst h2
          constructor
          · rcases hcids2 g' with h3 | h3
            · rw [h3, hg1, hcid]
            · exact h3
          · intro h2x hfol
            have hstep := hfol1 h2x hfol
            rcases hcids2 h2x with h3 | h3
            · rw [h3, hstep, hcid]
            · exact h3
        · have hspec := hfol2 g' h2
          refine ⟨hspec.1, ?_⟩
          intro h2x hfol
          exact hspec.2 h2x (follows_mono hmono1 hfol)

/-- The behavior of a successful `Signal.driver` call: the heap, the
registry size and the range-closedness are preserved, `_drives` lists
only grow, every content-handle write carries the driver's handle, the
follower is repointed to the driver's content, and so — transitively —
is every signal in the follower's chain. -/
theorem connect_ok_spec : ∀ (fuel f d : Nat) (s s' : Net),
    connect fuel f d s = .ok s' → f < s.sigs.length → d < s.sigs.length → closedB s = true →
    s'.heap = s.heap ∧ s'.sigs.length = s.sigs.length ∧ closedB s' = true ∧
    (∀ j, ∀ x ∈ drivesOf s j, x ∈ drivesOf s' j) ∧
    (∀ j, cidOf s' j = cidOf s j ∨ cidOf s' j = cidOf s d) ∧
    cidOf s' f = cidOf s d ∧
    (∀ g, Follows s f g → cidOf s' g = cidOf s d) := by
  intro fuel
  induction fuel with
  | zero =>
    intro f d s s' h
    rw [connect] at h
    exact absurd h (by simp)
  | succ fuel ih =>
    intro f d s s' h hf hd hc
    rw [connect] at h
    by_cases hdr : driverOf s f ≠ none ∧ driverOf s f ≠ some d
    · rw [if_pos hdr] at h
      exact absurd h (by simp)
    · rw [if_neg hdr, if_pos (show netCheckType s f d = true from rfl)] at h
      have hlen2 : (connectStep s f d).sigs.length = s.sigs.length := connectStep_len s f d
      have hheap2 : (connectStep s f d).heap = s.heap := connectStep_heap s f d
      have hc2 : closedB (connectStep s f d) = true := closedB_connectStep s f d hc hf
      have hcid2 : ∀ j, cidOf (connectStep s f d) j = if j = f then cidOf s d else cidOf s j :=
        cid_connectStep s f d hf
      have hrange : ∀ g ∈ drivesOf (connectStep s f d) f, g < (connectStep s f d).sigs.length := by
        intro g hg
        rcases drives_connectStep_f_sub s f d g hg with h1 | h1
        · rw [hlen2]
          exact closed_mem hc h1
        · subst h1
          rw [hlen2]
          exact hf
      have hff : f < (connectStep s f d).sigs.length := by
        rw [hlen2]
        exact hf
      have hcidf : cidOf (connectStep s f d) f = cidOf s d := by
        rw [hcid2 f, if_pos rfl]
      obtain ⟨hh, hl, hcl, hm, hcids, hf2, hfol⟩ :=
        connect_fold_spec fuel ih (drivesOf (connectStep s f d) f) f (cidOf s d)
          (connectStep s f d) s' h hrange hff hc2 hcidf
      refine ⟨?_, ?_, hcl, ?_, ?_, hf2, ?_⟩
      · rw [hh, hheap2]
      · rw [hl, hlen2]
      · intro j x hx
        exact hm j x (drives_connectStep_mono s f d j x hx)
      · intro j
        rcases hcids j with h1 | h1
        · rw [h1, hcid2 j]
          by_cases hj : j = f
          · rw [if_pos hj]
            right
            rfl
          · rw [if_neg hj]
            left
            rfl
        · right
          exact h1
      · intro g hfg
        cases hfg with
        | head hg1 =>
          exact (hfol g (drives_connectStep_mono s f d f g hg1)).1
        | tail hg1 htail =>
          exact (hfol _ (drives_connectStep_mono s f d f _ hg1)).2 g
            (follows_mono (drives_connectStep_mono s f d) htail)

theorem evalFlagsMeta_cid (m : SigMeta) (c : List Cell) : (evalFlagsMeta m c).cid = m.cid := by
  rw [evalFlagsMeta]
  by_cases h : headPend c
  · rw [if_pos h]
  · rw [if_neg h]

theorem cid_writeNet (d : Nat) (v : Int) (s : Net) (j : Nat) :
    cidOf (writeNet d v s) j = cidOf s j := rfl

theorem cid_updateNet (s : Net) (j : Nat) : cidOf (updateNet s).1 j = cidOf s j := by
  show ((s.sigs.map (fun m => evalFlagsMeta m (s.heap.getD m.cid []))).getD j dMeta).cid
    = cidOf s j
  by_cases h : j < s.sigs.length
  · rw [List.getD_eq_getElem?_getD, List.getElem?_map, List.getElem?_eq_getElem h]
    show (evalFlagsMeta s.sigs[j] _).cid = cidOf s j
    rw [evalFlagsMeta_cid]
    rw [cidOf, metaOf, List.getD_eq_getElem?_getD, List.getElem?_eq_getElem h]
    rfl
  · rw [List.getD_eq_getElem?_getD, List.getElem?_eq_none (by simp; omega)]
    rw [cidOf, metaOf, List.getD_eq_getElem?_getD, List.getElem?_eq_none (by omega)]

/-! ## Claim C8 — connection aliasing and its propagation -/

/-- Claim C8: a successful `connect` of follower `f` to driver `d` makes
`f`'s cell sequence the same storage (the same arena handle) as `d`'s,
and this propagates transitively to every signal already following `f`;
consequently, after writing `d`'s next value and running one scheduler
pass, `f` (and every follower-chain member) reads exactly `d`'s current
value, because both read the same heap slot.  The hypotheses ask for
valid signal numbers and a range-closed `_drives` registry; success of
`connect` itself excludes cyclic follower chains (they would exhaust any
finite fuel). -/
theorem c8_connect_aliasing :
    ∀ (fuel f d : Nat) (s s' : Net), connect fuel f d s = .ok s' →
    f < s.sigs.length → d < s.sigs.length → closedB s = true →
    cidOf s' f = cidOf s' d ∧
    (∀ g, Follows s f g → cidOf s' g = cidOf s' d) ∧
    (∀ (v : Int) (g : Nat), g = f ∨ Follows s f g →
      nowOf (updateNet (writeNet d v s')).1 g = nowOf (updateNet (writeNet d v s')).1 d) := by
  intro fuel f d s s' h hf hd hc
  obtain ⟨hh, hl, hcl, hm, hcids, hff, hfol⟩ := connect_ok_spec fuel f d s s' h hf hd hc
  have hdd : cidOf s' d = cidOf s d := by
    rcases hcids d with h1 | h1
    · exact h1
    · exact h1
  have hfd : cidOf s' f = cidOf s' d := by
    rw [hff, hdd]
  have hchain : ∀ g, g = f ∨ Follows s f g → cidOf s' g = cidOf s' d := by
    intro g hg
    rcases hg with hg | hg
    · rw [hg]
      exact hfd
    · rw [hfol g hg, hdd]
  refine ⟨hfd, fun g hg => hchain g (Or.inr hg), ?_⟩
  intro v g hg
  rw [nowOf, nowOf, contentOf, contentOf, cid_updateNet, cid_updateNet,
    cid_writeNet, cid_writeNet, hchain g hg]

/-- Claim C8, witness: a two-signal network; connecting signal 1 to
signal 0 aliases their storage, and after writing 7 into signal 0 and
one scheduler pass both read the same current value. -/
theorem c8_connect_aliasing_witness :
    cidOf ⟨[[⟨5, 5, false⟩], [⟨0, 0, false⟩]],
        [⟨0, none, [1], false, false, false, false⟩, ⟨0, some 0, [], false, false, false, false⟩]⟩ 1
      = cidOf ⟨[[⟨5, 5, false⟩], [⟨0, 0, false⟩]],
        [⟨0, none, [1], false, false, false, false⟩,
          ⟨0, some 0, [], false, false, false, false⟩]⟩ 0 ∧
    nowOf (updateNet (writeNet 0 7 ⟨[[⟨5, 5, false⟩], [⟨0, 0, false⟩]],
        [⟨0, none, [1], false, false, false, false⟩,
          ⟨0, some 0, [], false, false, false, false⟩]⟩)).1 1
      = nowOf (updateNet (writeNet 0 7 ⟨[[⟨5, 5, false⟩], [⟨0, 0, false⟩]],
        [⟨0, none, [1], false, false, false, false⟩,
          ⟨0, some 0, [], false, false, false, false⟩]⟩)).1 0 :=
  ⟨(c8_connect_aliasing 2 1 0
      ⟨[[⟨5, 5, false⟩], [⟨0, 0, false⟩]],
        [⟨0, none, [], false, false, false, false⟩, ⟨1, none, [], false, false, false, false⟩]⟩
      _ (by decide) (by decide) (by decide) (by decide)).1,
   (c8_connect_aliasing 2 1 0
      ⟨[[⟨5, 5, false⟩], [⟨0, 0, false⟩]],
        [⟨0, none, [], false, false, false, false⟩, ⟨1, none, [], false, false, false, false⟩]⟩
      _ (by decide) (by decide) (by decide) (by decide)).2.2 7 1 (Or.inl rfl)⟩

/-! ## Claim C9 — at most one driver, idempotent reconnection -/

/-- Claim C9: connecting a signal that already has a driver fails with
the multiple-driver violation when the new driver is a different signal;
reconnecting to the same driver is an idempotent no-op — in the state a
completed connection leaves behind (`settled`), `connect` returns the
state unchanged (in particular the follower set is not duplicated). -/
theorem c9_single_driver :
    (∀ (fuel f d d' : Nat) (s : Net), driverOf s f = some d' → d' ≠ d →
      connect (fuel + 1) f d s = .error .multipleDriver) ∧
    (∀ (fuel : Nat) (s : Net) (f d : Nat), settled fuel s f d = true →
      connect fuel f d s = .ok s) := by
  constructor
  · intro fuel f d d' s hdrv hne
    rw [connect, if_pos]
    constructor
    · rw [hdrv]
      simp
    · rw [hdrv]
      simp [hne]
  · exact fun fuel s f d h => connect_settled fuel s f d h

/-- Claim C9, witness: in a network where signal 1 is already connected
to signal 0, reconnecting to a different signal number 5 raises and
reconnecting to 0 returns the state unchanged. -/
theorem c9_single_driver_witness :
    connect 1 1 5 ⟨[[⟨0, 0, false⟩]],
        [⟨0, none, [1], false, false, false, false⟩, ⟨0, some 0, [], false, false, false, false⟩]⟩
      = .error .multipleDriver ∧
    connect 2 1 0 ⟨[[⟨0, 0, false⟩]],
        [⟨0, none, [1], false, false, false, false⟩, ⟨0, some 0, [], false, false, false, false⟩]⟩
      = .ok ⟨[[⟨0, 0, false⟩]],
        [⟨0, none, [1], false, false, false, false⟩,
          ⟨0, some 0, [], false, false, false, false⟩]⟩ :=
  ⟨c9_single_driver.1 0 1 5 0 _ (by decide) (by decide),
   c9_single_driver.2 2 _ 1 0 (by decide)⟩

/-! ## Claim C1 — the pending wake-up times -/

/-- Claim C1: the claim is right about the intent but the code is wrong.
`schedule_event` calls `event_times.insert(time_ps, i)` with the
arguments swapped — `list.insert` takes the position first — so it
inserts the loop **index** at the position given by the **time**.
Scheduling 10 then 5 on an empty list yields `[10, 0]`: the time 5 is
lost, a bogus time 0 appears, the list is not sorted, and the top-level
loop would advance the clock to the head 10 rather than the minimum
pending element; scheduling 0 next even duplicates the bogus entry. -/
theorem c1_schedule_event_bug :
    scheduleEvent (scheduleEvent [] 10) 5 = [10, 0] ∧
    (5 : Int) ∉ scheduleEvent (scheduleEvent [] 10) 5 ∧
    ¬ List.Sorted (· ≤ ·) (scheduleEvent (scheduleEvent [] 10) 5) ∧
    (scheduleEvent (scheduleEvent [] 10) 5).head? = some 10 ∧
    scheduleEvent [10, 0] 0 = [0, 10, 0] ∧
    ¬ List.Nodup (scheduleEvent [10, 0] 0) := by
  refine ⟨by decide, by decide, ?_, by decide, by decide, ?_⟩
  · intro h
    have h2 : (10 : Int) ≤ 0 := by
      have h3 := List.rel_of_sorted_cons (show List.Sorted (· ≤ ·) ([10, 0] : List Int) from
        (by decide : scheduleEvent (scheduleEvent [] 10) 5 = [10, 0]) ▸ h) 0
      exact h3 (by decide)
    omega
  · intro h
    rw [(by decide : scheduleEvent [10, 0] 0 = [0, 10, 0])] at h
    rcases List.nodup_cons.mp h with ⟨hmem, _⟩
    exact hmem (by decide)

end Ez
